import Mathlib

/-!
A verification development for the TileDB Storage Manager
(`tiledb/sm/storage_manager/storage_manager.h`) and its collaborators:
the fragment-URI sorting used by `array_open_for_reads`, the open-array
registry, the exclusive-lock (xlock) protocol, the in-progress query
counter, the LRU tile cache, the fragment-metadata loader, and the
VFS object helpers.  The repository ships only the class declarations;
the behaviour of each operation is embedded here following the header's
documentation comments and the system specification.
-/

/-- Status returned by Storage Manager operations: `ok`, or an error
carrying the kind from the error taxonomy (NotFound, AlreadyExists, ...). -/
inductive Status where
  | ok
  | error (kind : String)
deriving DecidableEq

/-- A parsed fragment URI: the embedded timestamp range `[tFirst, tLast]`
(milliseconds since the Unix epoch) and the UUID suffix.  Mirrors the
`TimestampedURI` values produced by parsing fragment directory names
`__<t_first>_<t_last>_<uuid>_<version>`. -/
structure TimestampedURI where
  tFirst : Nat
  tLast : Nat
  uuid : String
deriving DecidableEq

/-- The fragment ordering used by `get_sorted_fragment_uris`: ascending
first timestamp, ties broken by lexicographic comparison of the UUID. -/
def TimestampedURI.le (a b : TimestampedURI) : Prop :=
  a.tFirst < b.tFirst ∨ (a.tFirst = b.tFirst ∧ a.uuid ≤ b.uuid)

instance : DecidableRel TimestampedURI.le := fun a b =>
  inferInstanceAs (Decidable (_ ∨ _))

instance : IsTotal TimestampedURI TimestampedURI.le := by
  constructor
  intro a b
  rcases Nat.lt_trichotomy a.tFirst b.tFirst with h | h | h
  · exact Or.inl (Or.inl h)
  · rcases le_total a.uuid b.uuid with h2 | h2
    · exact Or.inl (Or.inr ⟨h, h2⟩)
    · exact Or.inr (Or.inr ⟨h.symm, h2⟩)
  · exact Or.inr (Or.inl h)

instance : IsTrans TimestampedURI TimestampedURI.le := by
  constructor
  intro a b c hab hbc
  rcases hab with h1 | ⟨h1, h1u⟩
  · rcases hbc with h2 | ⟨h2, _⟩
    · exact Or.inl (Nat.lt_trans h1 h2)
    · exact Or.inl (h2 ▸ h1)
  · rcases hbc with h2 | ⟨h2, h2u⟩
    · exact Or.inl (h1 ▸ h2)
    · exact Or.inr ⟨h1.trans h2, le_trans h1u h2u⟩

/-- Modelled from the spec: the body of
`StorageManager::get_sorted_fragment_uris` is absent from the sources
(only its declaration and documentation remain).  Per the header doc and
spec §4.5 steps 3–4: discard fragments whose first timestamp exceeds the
read timestamp, then sort the rest by ascending first timestamp, breaking
ties by lexicographic UUID order.  The input is the list of already-parsed
fragment URIs. -/
def get_sorted_fragment_uris
    (fragment_uris : List TimestampedURI) (timestamp : Nat) :
    List TimestampedURI :=
  List.insertionSort TimestampedURI.le
    (fragment_uris.filter (fun f => f.tFirst ≤ timestamp))

/-- Modelled from the spec: the body of
`StorageManager::array_open_for_reads` is absent from the sources.  The
fragment part of the returned snapshot is the sorted, timestamp-filtered
fragment list (the metadata list is in one-to-one positional
correspondence with it, see `load_fragment_metadata`). -/
def array_open_for_reads
    (fragment_uris : List TimestampedURI) (timestamp : Nat) :
    List TimestampedURI :=
  get_sorted_fragment_uris fragment_uris timestamp

/-- Claim C1: every fragment in the snapshot returned by
`array_open_for_reads` at timestamp `t` has `tFirst ≤ t`, the list is
sorted ascending by `(tFirst, uuid)` with the UUID compared
lexicographically, and (the enumerated fragment URIs being distinct) the
list contains no duplicate fragments. -/
theorem array_open_for_reads_snapshot_sorted
    (frags : List TimestampedURI) (t : Nat) (hnd : frags.Nodup) :
    (∀ f ∈ array_open_for_reads frags t, f.tFirst ≤ t) ∧
    List.Sorted TimestampedURI.le (array_open_for_reads frags t) ∧
    (array_open_for_reads frags t).Nodup := by
  refine ⟨?_, ?_, ?_⟩
  · intro f hf
    have hmem := (List.mem_insertionSort TimestampedURI.le).1 hf
    have := List.of_mem_filter hmem
    exact of_decide_eq_true this
  · exact List.sorted_insertionSort TimestampedURI.le _
  · exact (List.perm_insertionSort TimestampedURI.le _).symm.nodup
      (hnd.filter _)

/-- Witness for Claim C1 at a concrete fragment list and timestamp. -/
theorem array_open_for_reads_snapshot_sorted_witness :
    ([⟨5, 6, "b"⟩, ⟨3, 4, "a"⟩, ⟨7, 9, "z"⟩, ⟨3, 5, "c"⟩] :
      List TimestampedURI).Nodup ∧
    ((∀ f ∈ array_open_for_reads
        [⟨5, 6, "b"⟩, ⟨3, 4, "a"⟩, ⟨7, 9, "z"⟩, ⟨3, 5, "c"⟩] 6,
        f.tFirst ≤ 6) ∧
     List.Sorted TimestampedURI.le
       (array_open_for_reads
         [⟨5, 6, "b"⟩, ⟨3, 4, "a"⟩, ⟨7, 9, "z"⟩, ⟨3, 5, "c"⟩] 6) ∧
     (array_open_for_reads
       [⟨5, 6, "b"⟩, ⟨3, 4, "a"⟩, ⟨7, 9, "z"⟩, ⟨3, 5, "c"⟩] 6).Nodup) :=
  ⟨by decide,
   array_open_for_reads_snapshot_sorted
     [⟨5, 6, "b"⟩, ⟨3, 4, "a"⟩, ⟨7, 9, "z"⟩, ⟨3, 5, "c"⟩] 6 (by decide)⟩

/-- Pointwise update of a `String`-indexed map. -/
def updMap {α : Type} (f : String → α) (u : String) (v : α) : String → α :=
  fun x => if x = u then v else f x

/-- State of the process-wide open-array machinery relevant to the
exclusive-lock protocol: the read-mode refcount per array URI
(`open_arrays_for_reads_`; 0 means no read-mode Open-Array Entry exists)
and the Exclusive Lock Table membership (`xfilelocks_`). -/
structure RegState where
  readRef : String → Nat
  xlocked : String → Bool

/-- Labels of the open-array registry transitions. -/
inductive RegLabel where
  | openR (u : String)
  | closeR (u : String)
  | xlockL (u : String)
  | xunlockL (u : String)
deriving DecidableEq

/-- Modelled from the spec: the bodies of `array_open_for_reads`,
`array_close_for_reads`, `array_xlock` and `array_xunlock` are absent
from the sources.  Their registry effects, per the header documentation
and spec §4.4/§4.7: an open in read mode increments the URI's refcount
and is blocked (waits on `xlock_cv_`) while the URI is exclusively
locked; a close decrements the refcount; `array_xlock` completes only
once the read-mode refcount is zero and then records the URI in the
Exclusive Lock Table; `array_xunlock` removes it. -/
inductive RegStep : RegState → RegLabel → RegState → Prop where
  | openR (s : RegState) (u : String) (hx : s.xlocked u = false) :
      RegStep s (.openR u)
        { s with readRef := updMap s.readRef u (s.readRef u + 1) }
  | closeR (s : RegState) (u : String) :
      RegStep s (.closeR u)
        { s with readRef := updMap s.readRef u (s.readRef u - 1) }
  | xlockL (s : RegState) (u : String) (h0 : s.readRef u = 0) :
      RegStep s (.xlockL u)
        { s with xlocked := updMap s.xlocked u true }
  | xunlockL (s : RegState) (u : String) :
      RegStep s (.xunlockL u)
        { s with xlocked := updMap s.xlocked u false }

/-- Claim C2: after `array_xlock(uri)` returns, the read-mode refcount of
`uri` is zero (no read-mode Open-Array Entry exists) and the exclusive
lock is held; in any state where the exclusive lock on `uri` is held, no
`array_open_for_reads` step on `uri` is enabled (such calls block on the
xlock condition variable); and every step other than `array_xunlock(uri)`
keeps the exclusive lock held. -/
theorem array_xlock_excludes_readers (s s' : RegState) (u : String)
    (h : RegStep s (.xlockL u) s') :
    s'.readRef u = 0 ∧ s'.xlocked u = true ∧
    (∀ t t' : RegState, t.xlocked u = true → ¬ RegStep t (.openR u) t') ∧
    (∀ (t t' : RegState) (lbl : RegLabel), t.xlocked u = true →
      lbl ≠ .xunlockL u → RegStep t lbl t' → t'.xlocked u = true) := by
  cases h with
  | xlockL u h0 =>
    refine ⟨h0, by simp [updMap], ?_, ?_⟩
    · intro t t' ht hstep
      cases hstep with
      | openR v hx =>
        rw [ht] at hx
        exact Bool.noConfusion hx
    · intro t t' lbl ht hlbl hstep
      cases hstep with
      | openR v hx => exact ht
      | closeR v => exact ht
      | xlockL v h0v =>
        by_cases huv : u = v
        · simp [updMap, huv]
        · simpa [updMap, huv] using ht
      | xunlockL v =>
        have huv : u ≠ v := by
          intro hc
          exact hlbl (by rw [hc])
        simpa [updMap, huv] using ht

/-- Witness for Claim C2: a concrete `array_xlock` step from the initial
registry state. -/
theorem array_xlock_excludes_readers_witness :
    (RegState.mk (fun _ => 0) (fun _ => false)).readRef "a" = 0 ∧
    (({ RegState.mk (fun _ => 0) (fun _ => false) with
        xlocked := updMap (fun _ => false) "a" true }).readRef "a" = 0 ∧
     ({ RegState.mk (fun _ => 0) (fun _ => false) with
        xlocked := updMap (fun _ => false) "a" true }).xlocked "a" = true ∧
     (∀ t t' : RegState, t.xlocked "a" = true →
        ¬ RegStep t (.openR "a") t') ∧
     (∀ (t t' : RegState) (lbl : RegLabel), t.xlocked "a" = true →
        lbl ≠ .xunlockL "a" → RegStep t lbl t' → t'.xlocked "a" = true)) :=
  ⟨rfl,
   array_xlock_excludes_readers
     (RegState.mk (fun _ => 0) (fun _ => false)) _ "a"
     (RegStep.xlockL (RegState.mk (fun _ => 0) (fun _ => false)) "a" rfl)⟩

/-- State of the task-cancellation machinery: the in-progress query
counter (`queries_in_progress_`) and the cancellation flag
(`cancellation_in_progress_`). -/
structure TaskState where
  queriesInProgress : Nat
  cancellationInProgress : Bool
deriving DecidableEq

/-- Modelled from the spec: the body of
`StorageManager::wait_for_zero_in_progress` is absent from the sources.
It blocks on `queries_in_progress_cv_` until the counter is zero; each
element of `events` is one in-flight query finishing (decrementing the
counter).  The call returns (`some`, carrying the counter value at
return) exactly when enough completions occur; with a positive counter
and no completions it never returns (`none`). -/
def wait_for_zero_in_progress : Nat → List Unit → Option Nat
  | 0, _ => some 0
  | _ + 1, [] => none
  | n + 1, _ :: evs => wait_for_zero_in_progress n evs

/-- Modelled from the spec: the body of
`StorageManager::cancel_all_tasks` is absent from the sources.  Per the
spec §4.7: it sets the cancellation flag, waits for the in-progress
counter to reach zero (`wait_for_zero_in_progress`, fed by the trace
`events` of query completions), then clears the flag so the Storage
Manager may be reinitialised. -/
def cancel_all_tasks (s : TaskState) (events : List Unit) :
    Option TaskState :=
  match wait_for_zero_in_progress s.queriesInProgress events with
  | some n => some { queriesInProgress := n, cancellationInProgress := false }
  | none => none

/-- `wait_for_zero_in_progress` only ever returns the counter value 0. -/
theorem wait_for_zero_in_progress_eq_zero :
    ∀ (n : Nat) (evs : List Unit) (m : Nat),
      wait_for_zero_in_progress n evs = some m → m = 0
  | 0, _, m, h => by
    simpa [wait_for_zero_in_progress] using h.symm
  | _ + 1, [], _, h => by
    simp [wait_for_zero_in_progress] at h
  | n + 1, _ :: evs, m, h =>
    wait_for_zero_in_progress_eq_zero n evs m h

/-- Claim C3: whenever `cancel_all_tasks` returns, the in-progress
counter is 0; and if the counter is already 0 (e.g. immediately after
construction) it returns without blocking, i.e. without consuming any
query-completion event. -/
theorem cancel_all_tasks_returns_at_zero
    (s s' : TaskState) (events : List Unit)
    (h : cancel_all_tasks s events = some s') :
    s'.queriesInProgress = 0 ∧
    (s.queriesInProgress = 0 →
      cancel_all_tasks s [] = some ⟨0, false⟩) := by
  constructor
  · unfold cancel_all_tasks at h
    cases hw : wait_for_zero_in_progress s.queriesInProgress events with
    | none => rw [hw] at h; exact absurd h (by simp)
    | some n =>
      rw [hw] at h
      have hn : n = 0 :=
        wait_for_zero_in_progress_eq_zero s.queriesInProgress events n hw
      have : s' = { queriesInProgress := n, cancellationInProgress := false } := by
        exact (Option.some_inj.mp h).symm
      rw [this, hn]
  · intro h0
    unfold cancel_all_tasks
    rw [h0]
    rfl

/-- Witness for Claim C3: `cancel_all_tasks` on a fresh Storage Manager
state (counter 0) with an empty completion trace. -/
theorem cancel_all_tasks_returns_at_zero_witness :
    cancel_all_tasks ⟨0, false⟩ [] = some ⟨0, false⟩ ∧
    ((⟨0, false⟩ : TaskState).queriesInProgress = 0 ∧
     ((⟨0, false⟩ : TaskState).queriesInProgress = 0 →
       cancel_all_tasks ⟨0, false⟩ [] = some ⟨0, false⟩)) :=
  ⟨rfl, cancel_all_tasks_returns_at_zero ⟨0, false⟩ ⟨0, false⟩ [] rfl⟩

/-- `StorageManager::increment_in_progress`: adds one to
`queries_in_progress_` (declaration in the header; counter modelled as an
integer to express non-negativity). -/
def increment_in_progress (n : Int) : Int := n + 1

/-- `StorageManager::decrement_in_progress`: subtracts one from
`queries_in_progress_`. -/
def decrement_in_progress (n : Int) : Int := n - 1

/-- Terminal outcome of running a query body: normal completion or an
error/exception. -/
inductive QueryOutcome where
  | completed
  | failed (err : String)
deriving DecidableEq

/-- Modelled from the spec: the body of `StorageManager::query_submit` is
absent from the sources; the header does contain the `QueryInProgress`
RAII struct, whose constructor calls `increment_in_progress` and whose
destructor calls `decrement_in_progress`, so the counter is decremented
even when the body exits by exception.  Returns the query's terminal
outcome, the final counter value, and the successive counter values
observed during the call. -/
def query_submit (n : Int) (outcome : QueryOutcome) :
    QueryOutcome × Int × List Int :=
  let n1 := increment_in_progress n
  match outcome with
  | .completed =>
      (.completed, decrement_in_progress n1,
       [n, n1, decrement_in_progress n1])
  | .failed e =>
      (.failed e, decrement_in_progress n1,
       [n, n1, decrement_in_progress n1])

/-- Claim C4: a query operation increments the in-progress counter on
entry and decrements it on every exit path (normal or error), so the
counter returns exactly to its pre-call value, and — starting from a
non-negative value — every observed counter value stays non-negative. -/
theorem query_submit_counter_balanced (n : Int) (outcome : QueryOutcome)
    (h : 0 ≤ n) :
    (query_submit n outcome).2.1 = n ∧
    (query_submit n outcome).1 = outcome ∧
    (query_submit n outcome).2.2 =
      [n, increment_in_progress n,
       decrement_in_progress (increment_in_progress n)] ∧
    ∀ m ∈ (query_submit n outcome).2.2, 0 ≤ m := by
  cases outcome with
  | completed =>
    refine ⟨by simp [query_submit, increment_in_progress,
        decrement_in_progress], rfl, rfl, ?_⟩
    intro m hm
    simp [query_submit, increment_in_progress, decrement_in_progress]
      at hm
    rcases hm with h1 | h1 | h1 <;> omega
  | failed e =>
    refine ⟨by simp [query_submit, increment_in_progress,
        decrement_in_progress], rfl, rfl, ?_⟩
    intro m hm
    simp [query_submit, increment_in_progress, decrement_in_progress]
      at hm
    rcases hm with h1 | h1 | h1 <;> omega

/-- Witness for Claim C4: a query failing at counter value 0. -/
theorem query_submit_counter_balanced_witness :
    (0 : Int) ≤ 0 ∧
    ((query_submit 0 (.failed "IOError")).2.1 = 0 ∧
     (query_submit 0 (.failed "IOError")).1 = .failed "IOError" ∧
     (query_submit 0 (.failed "IOError")).2.2 =
       [0, increment_in_progress 0,
        decrement_in_progress (increment_in_progress 0)] ∧
     ∀ m ∈ (query_submit 0 (.failed "IOError")).2.2, 0 ≤ m) :=
  ⟨le_refl 0, query_submit_counter_balanced 0 (.failed "IOError") (le_refl 0)⟩

/-- The open-array registry for reads, as it concerns one mode: per-URI
reference count (`open_arrays_for_reads_`; 0 means the entry is absent)
and the shared filelock held while the entry exists. -/
structure OpenArrayRegistry where
  refcount : String → Nat
  filelock : String → Bool

/-- Modelled from the spec: the registry effect of
`StorageManager::array_open_for_reads`, whose body is absent from the
sources.  Per spec §4.4: if no entry exists the entry is created with
refcount 1 and the shared filelock acquired; otherwise the refcount is
incremented. -/
def array_open_for_reads_reg (r : OpenArrayRegistry) (u : String) :
    OpenArrayRegistry :=
  if r.refcount u = 0 then
    { refcount := updMap r.refcount u 1,
      filelock := updMap r.filelock u true }
  else
    { r with refcount := updMap r.refcount u (r.refcount u + 1) }

/-- Modelled from the spec: the registry effect of
`StorageManager::array_close_for_reads`, whose body is absent from the
sources.  Per spec §4.4: decrement the refcount; on reaching zero remove
the entry and release the filelock.  Closing an array that is not open
is an error that leaves the registry unchanged. -/
def array_close_for_reads_reg (r : OpenArrayRegistry) (u : String) :
    OpenArrayRegistry :=
  match r.refcount u with
  | 0 => r
  | 1 =>
      { refcount := updMap r.refcount u 0,
        filelock := updMap r.filelock u false }
  | n + 2 =>
      { r with refcount := updMap r.refcount u (n + 1) }

/-- Claim C5: on any registry state satisfying the registry invariant
(the filelock for a URI is held exactly while its entry exists),
`array_open_for_reads` followed by `array_close_for_reads` on the same
URI restores the registry exactly: refcounts, entry set and filelocks. -/
theorem open_close_for_reads_roundtrip (r : OpenArrayRegistry) (u : String)
    (hwf : ∀ v, r.filelock v = decide (0 < r.refcount v)) :
    array_close_for_reads_reg (array_open_for_reads_reg r u) u = r := by
  cases r with
  | mk rc fl =>
    by_cases h0 : rc u = 0
    · have h1 : (array_open_for_reads_reg ⟨rc, fl⟩ u).refcount u = 1 := by
        simp [array_open_for_reads_reg, h0, updMap]
      unfold array_close_for_reads_reg
      rw [h1]
      simp only [array_open_for_reads_reg, h0, if_pos]
      congr 1
      · funext x
        by_cases hx : x = u
        · simpa [updMap, hx] using h0.symm
        · simp [updMap, hx]
      · funext x
        by_cases hx : x = u
        · have hfl : fl u = false := by
            have := hwf u
            simp only [h0] at this
            simpa using this
          simp [updMap, hx, hfl]
        · simp [updMap, hx]
    · obtain ⟨m, hm⟩ : ∃ m, rc u = m + 1 :=
        ⟨rc u - 1, by omega⟩
      have h1 : (array_open_for_reads_reg ⟨rc, fl⟩ u).refcount u = m + 2 := by
        simp [array_open_for_reads_reg, h0, updMap, hm]
      unfold array_close_for_reads_reg
      rw [h1]
      simp only [array_open_for_reads_reg, h0, if_neg, ite_false]
      congr 1
      funext x
      by_cases hx : x = u
      · simpa [updMap, hx] using hm.symm
      · simp [updMap, hx]

/-- Witness for Claim C5: the round trip on the empty registry. -/
theorem open_close_for_reads_roundtrip_witness :
    (∀ v, (OpenArrayRegistry.mk (fun _ => 0) (fun _ => false)).filelock v =
      decide (0 < (OpenArrayRegistry.mk (fun _ => 0)
        (fun _ => false)).refcount v)) ∧
    array_close_for_reads_reg
      (array_open_for_reads_reg
        (OpenArrayRegistry.mk (fun _ => 0) (fun _ => false)) "a") "a" =
      OpenArrayRegistry.mk (fun _ => 0) (fun _ => false) :=
  ⟨fun v => rfl,
   open_close_for_reads_roundtrip
     (OpenArrayRegistry.mk (fun _ => 0) (fun _ => false)) "a"
     (fun v => rfl)⟩

/-- A byte buffer as handed to the cache passthrough API: its contents
and its current offset (the size is the length of the contents). -/
structure Buffer where
  data : List Nat
  offset : Nat
deriving DecidableEq

/-- An entry of the LRU tile cache: the key `(uri, offset)` — the
attribute file URI and the tile's offset in it — and the cached bytes. -/
structure CacheEntry where
  uri : String
  off : Nat
  bytes : List Nat
deriving DecidableEq

/-- Size in bytes of a cache entry's value. -/
def CacheEntry.size (e : CacheEntry) : Nat := e.bytes.length

/-- The LRU tile cache (`tile_cache_`): the configured capacity
(`sm.tile_cache_size`) and the entries ordered from least- to
most-recently used. -/
structure LRUCache where
  capacity : Nat
  entries : List CacheEntry
deriving DecidableEq

/-- Total number of bytes held by a list of cache entries. -/
def totalBytes (l : List CacheEntry) : Nat :=
  (l.map CacheEntry.size).sum

/-- Modelled from the spec: the eviction loop of the LRU cache's insert
(`lru_cache.h` body absent from the sources).  Evicts least-recently-used
entries from the front until the held bytes plus the incoming `need`
bytes fit in `cap`. -/
def evictLRU (cap need : Nat) : List CacheEntry → List CacheEntry
  | [] => []
  | e :: rest =>
      if totalBytes (e :: rest) + need ≤ cap then e :: rest
      else evictLRU cap need rest

/-- Modelled from the spec: `LRUCache::insert`, whose body is absent
from the sources.  Per spec §4.3: an object larger than the whole
capacity is silently dropped and success is still reported; otherwise
any previous entry under the same key is replaced, LRU entries are
evicted until the new total fits, and the object is inserted in the
most-recently-used position. -/
def LRUCache.insert (c : LRUCache) (uri : String) (off : Nat)
    (bytes : List Nat) : Status × LRUCache :=
  if c.capacity < bytes.length then (Status.ok, c)
  else
    let pruned := c.entries.filter
      (fun e => ¬(e.uri = uri ∧ e.off = off))
    (Status.ok,
     { c with entries :=
         evictLRU c.capacity bytes.length pruned ++ [⟨uri, off, bytes⟩] })

/-- Modelled from the spec: `LRUCache::read`, whose body is absent from
the sources.  On a hit returns the cached bytes and promotes the entry
to most-recently-used; on a miss returns `none` and leaves the cache
unchanged. -/
def LRUCache.read (c : LRUCache) (uri : String) (off : Nat) :
    Option (List Nat) × LRUCache :=
  match c.entries.find? (fun e => e.uri = uri && e.off = off) with
  | some e =>
      (some e.bytes, { c with entries := c.entries.erase e ++ [e] })
  | none => (none, c)

/-- `StorageManager::write_to_cache`: thin forwarder of the buffer's
contents to the tile cache insert. -/
def write_to_cache (c : LRUCache) (uri : String) (off : Nat)
    (buffer : Buffer) : Status × LRUCache :=
  LRUCache.insert c uri off buffer.data

/-- `StorageManager::read_from_cache`: thin forwarder to the tile cache
read.  On a hit the buffer is reallocated to the cached bytes, its size
set accordingly and its offset reset; on a miss the buffer is left
unchanged and `in_cache` is `false`.  `nbytes` is the number of bytes
the caller expects, i.e. the size of the cached object. -/
def read_from_cache (c : LRUCache) (uri : String) (off : Nat)
    (buffer : Buffer) (nbytes : Nat) : Buffer × Bool × LRUCache :=
  match LRUCache.read c uri off with
  | (some bytes, c') => (⟨bytes, 0⟩, true, c')
  | (none, c') => (buffer, false, c')

/-- One tile-cache operation: an insert or a read. -/
inductive CacheOp where
  | ins (uri : String) (off : Nat) (bytes : List Nat)
  | rd (uri : String) (off : Nat)
deriving DecidableEq

/-- The cache state after applying one operation. -/
def applyCacheOp (c : LRUCache) : CacheOp → LRUCache
  | .ins u o b => (LRUCache.insert c u o b).2
  | .rd u o => (LRUCache.read c u o).2

/-- The cache state after applying a sequence of operations. -/
def applyCacheOps (c : LRUCache) (ops : List CacheOp) : LRUCache :=
  ops.foldl applyCacheOp c

/-- After eviction there is room for `need` more bytes, provided `need`
alone fits in the capacity. -/
theorem totalBytes_evictLRU (cap need : Nat) (h : need ≤ cap) :
    ∀ l : List CacheEntry, totalBytes (evictLRU cap need l) + need ≤ cap
  | [] => by simpa [evictLRU, totalBytes] using h
  | e :: rest => by
      unfold evictLRU
      by_cases hfit : totalBytes (e :: rest) + need ≤ cap
      · simpa [hfit] using hfit
      · simpa [hfit] using totalBytes_evictLRU cap need h rest

/-- `totalBytes` over an append. -/
theorem totalBytes_append (l1 l2 : List CacheEntry) :
    totalBytes (l1 ++ l2) = totalBytes l1 + totalBytes l2 := by
  simp [totalBytes]

/-- An insert never pushes the held bytes above the capacity. -/
theorem insert_totalBytes_le (c : LRUCache) (uri : String) (off : Nat)
    (bytes : List Nat) (h : totalBytes c.entries ≤ c.capacity) :
    totalBytes (LRUCache.insert c uri off bytes).2.entries ≤
      (LRUCache.insert c uri off bytes).2.capacity := by
  unfold LRUCache.insert
  by_cases hbig : c.capacity < bytes.length
  · simpa [hbig] using h
  · have hle : bytes.length ≤ c.capacity := Nat.le_of_not_lt hbig
    have hev := totalBytes_evictLRU c.capacity bytes.length hle
      (c.entries.filter (fun e => ¬(e.uri = uri ∧ e.off = off)))
    simp only [hbig, if_false, ite_false]
    rw [totalBytes_append]
    simpa [totalBytes, CacheEntry.size] using hev

/-- A read leaves the held bytes unchanged. -/
theorem read_totalBytes_eq (c : LRUCache) (uri : String) (off : Nat) :
    totalBytes (LRUCache.read c uri off).2.entries =
      totalBytes c.entries := by
  unfold LRUCache.read
  cases hf : c.entries.find? (fun e => e.uri = uri && e.off = off) with
  | none => rfl
  | some e =>
      have he : e ∈ c.entries := List.mem_of_find?_eq_some hf
      have hperm : (c.entries.erase e ++ [e]).Perm c.entries :=
        (List.perm_append_singleton e (c.entries.erase e)).trans
          (List.perm_cons_erase he).symm
      simpa [totalBytes] using (hperm.map CacheEntry.size).sum_eq

/-- Reads and inserts both preserve capacity and the capacity bound. -/
theorem applyCacheOp_invariant (c : LRUCache) (op : CacheOp)
    (h : totalBytes c.entries ≤ c.capacity) :
    totalBytes (applyCacheOp c op).entries ≤ (applyCacheOp c op).capacity ∧
    (applyCacheOp c op).capacity = c.capacity := by
  cases op with
  | ins u o b =>
      refine ⟨insert_totalBytes_le c u o b h, ?_⟩
      unfold applyCacheOp LRUCache.insert
      by_cases hbig : c.capacity < b.length <;> simp [hbig]
  | rd u o =>
      have hcap : (LRUCache.read c u o).2.capacity = c.capacity := by
        unfold LRUCache.read
        cases hf : c.entries.find? (fun e => e.uri = u && e.off = o) with
        | none => rfl
        | some e => rfl
      constructor
      · show totalBytes (LRUCache.read c u o).2.entries ≤
          (LRUCache.read c u o).2.capacity
        rw [read_totalBytes_eq, hcap]
        exact h
      · exact hcap

/-- Claim C6: starting from a freshly constructed tile cache, under any
sequence of insert and read operations the total bytes held never
exceed the configured capacity (`sm.tile_cache_size`), which itself
never changes. -/
theorem tile_cache_capacity_invariant (cap : Nat) (ops : List CacheOp) :
    totalBytes (applyCacheOps ⟨cap, []⟩ ops).entries ≤ cap ∧
    (applyCacheOps ⟨cap, []⟩ ops).capacity = cap := by
  suffices hgen : ∀ (c : LRUCache), totalBytes c.entries ≤ c.capacity →
      totalBytes (applyCacheOps c ops).entries ≤
        (applyCacheOps c ops).capacity ∧
      (applyCacheOps c ops).capacity = c.capacity by
    obtain ⟨h1, h2⟩ := hgen ⟨cap, []⟩ (by simp [totalBytes])
    have h2c : (applyCacheOps ⟨cap, []⟩ ops).capacity = cap := h2
    exact ⟨le_of_le_of_eq h1 h2c, h2c⟩
  induction ops with
  | nil => intro c hc; exact ⟨hc, rfl⟩
  | cons op rest ih =>
      intro c hc
      have hstep := applyCacheOp_invariant c op hc
      have hrest := ih (applyCacheOp c op) hstep.1
      have hred : applyCacheOps c (op :: rest) =
          applyCacheOps (applyCacheOp c op) rest := rfl
      rw [hred]
      exact ⟨hrest.1, hrest.2.trans hstep.2⟩

/-- Claim C7: a tile-cache insert of a value whose size alone exceeds
the capacity still reports success and leaves the cache (entries and
capacity) completely unchanged. -/
theorem write_to_cache_oversized (c : LRUCache) (uri : String)
    (off : Nat) (buffer : Buffer)
    (h : c.capacity < buffer.data.length) :
    write_to_cache c uri off buffer = (Status.ok, c) := by
  unfold write_to_cache LRUCache.insert
  simp [h]

/-- Witness for Claim C7: inserting 3 bytes into a 2-byte cache. -/
theorem write_to_cache_oversized_witness :
    (LRUCache.mk 2 []).capacity <
      (Buffer.mk [7, 7, 7] 0).data.length ∧
    write_to_cache (LRUCache.mk 2 []) "u" 0 (Buffer.mk [7, 7, 7] 0) =
      (Status.ok, LRUCache.mk 2 []) :=
  ⟨by decide,
   write_to_cache_oversized (LRUCache.mk 2 []) "u" 0
     (Buffer.mk [7, 7, 7] 0) (by decide)⟩

/-- Claim C8: reading a key `(uri, offset)` that is not in the tile
cache reports `in_cache = false` and leaves the caller's buffer —
contents, size and offset — and the cache itself unchanged. -/
theorem read_from_cache_miss (c : LRUCache) (uri : String) (off : Nat)
    (buffer : Buffer) (nbytes : Nat)
    (h : ∀ e ∈ c.entries, ¬(e.uri = uri ∧ e.off = off)) :
    read_from_cache c uri off buffer nbytes = (buffer, false, c) := by
  have hf : c.entries.find? (fun e => e.uri = uri && e.off = off)
      = none := by
    rw [List.find?_eq_none]
    intro e he
    have := h e he
    simp only [Bool.and_eq_true, decide_eq_true_eq]
    intro hc
    exact this ⟨hc.1, hc.2⟩
  unfold read_from_cache LRUCache.read
  rw [hf]

/-- Witness for Claim C8: a miss on a cache holding one other key. -/
theorem read_from_cache_miss_witness :
    (∀ e ∈ (LRUCache.mk 10 [⟨"v", 0, [1, 2]⟩]).entries,
      ¬(e.uri = "u" ∧ e.off = 4)) ∧
    read_from_cache (LRUCache.mk 10 [⟨"v", 0, [1, 2]⟩]) "u" 4
        (Buffer.mk [9] 1) 2 =
      (Buffer.mk [9] 1, false, LRUCache.mk 10 [⟨"v", 0, [1, 2]⟩]) :=
  ⟨by decide,
   read_from_cache_miss (LRUCache.mk 10 [⟨"v", 0, [1, 2]⟩]) "u" 4
     (Buffer.mk [9] 1) 2 (by decide)⟩

/-- Lookup in an Open-Array Entry's fragment-metadata map, represented
as an association list `fragment URI → loaded metadata`. -/
def lookupMeta {μ : Type} (m : List (TimestampedURI × μ))
    (f : TimestampedURI) : Option μ :=
  match m with
  | [] => none
  | (g, v) :: rest => if g = f then some v else lookupMeta rest f

/-- Modelled from the spec: the body of
`StorageManager::load_fragment_metadata` is absent from the sources.
Per the header documentation and spec §4.5 step 5: for each fragment URI
in `fragments_to_load`, in order, reuse the metadata cached in the open
array's map if present, otherwise load it from storage (`loadMeta`,
standing for reading and parsing the fragment's metadata file with the
encryption key) and insert it into the map; the loaded metadata are
collected in a vector in one-to-one positional correspondence with the
input.  Returns the updated map and that vector. -/
def load_fragment_metadata {μ : Type} (loadMeta : TimestampedURI → μ)
    (metadataMap : List (TimestampedURI × μ)) :
    List TimestampedURI → List (TimestampedURI × μ) × List μ
  | [] => (metadataMap, [])
  | f :: fs =>
      match lookupMeta metadataMap f with
      | some v =>
          let r := load_fragment_metadata loadMeta metadataMap fs
          (r.1, v :: r.2)
      | none =>
          let r := load_fragment_metadata loadMeta
            ((f, loadMeta f) :: metadataMap) fs
          (r.1, loadMeta f :: r.2)

/-- A cached value found under a key equals the value storage would
load for that key, provided the map is coherent with storage. -/
theorem lookupMeta_eq_loadMeta {μ : Type} (loadMeta : TimestampedURI → μ) :
    ∀ (m : List (TimestampedURI × μ)) (f : TimestampedURI) (v : μ),
      (∀ p ∈ m, p.2 = loadMeta p.1) → lookupMeta m f = some v →
      v = loadMeta f
  | [], f, v, _, h => by simp [lookupMeta] at h
  | (g, w) :: rest, f, v, hcoh, h => by
      by_cases hg : g = f
      · have hw : w = v := by
          simpa [lookupMeta, hg] using h
        have hcg : w = loadMeta g := hcoh (g, w) (by simp)
        rw [← hw, hcg, hg]
      · exact lookupMeta_eq_loadMeta loadMeta rest f v
          (fun p hp => hcoh p (by simp [hp]))
          (by simpa [lookupMeta, hg] using h)

/-- With a coherent starting map, the metadata vector returned by the
loader is exactly the input fragment list mapped through storage. -/
theorem load_fragment_metadata_eq_map {μ : Type}
    (loadMeta : TimestampedURI → μ) :
    ∀ (fs : List TimestampedURI) (m : List (TimestampedURI × μ)),
      (∀ p ∈ m, p.2 = loadMeta p.1) →
      (load_fragment_metadata loadMeta m fs).2 = fs.map loadMeta
  | [], m, _ => rfl
  | f :: fs, m, hcoh => by
      unfold load_fragment_metadata
      cases hl : lookupMeta m f with
      | some v =>
          have hv := lookupMeta_eq_loadMeta loadMeta m f v hcoh hl
          simp only [List.map_cons]
          rw [load_fragment_metadata_eq_map loadMeta fs m hcoh, hv]
      | none =>
          simp only [List.map_cons]
          rw [load_fragment_metadata_eq_map loadMeta fs
            ((f, loadMeta f) :: m)
            (by
              intro p hp
              rcases List.mem_cons.mp hp with hp1 | hp2
              · rw [hp1]
              · exact hcoh p hp2)]

/-- Claim C9: given a metadata map coherent with storage,
`load_fragment_metadata` returns a metadata vector in one-to-one
positional correspondence with `fragments_to_load`: same length, and the
i-th output element is the metadata of the i-th input fragment URI,
whether freshly loaded or reused from the cached map. -/
theorem load_fragment_metadata_positional {μ : Type}
    (loadMeta : TimestampedURI → μ) (m : List (TimestampedURI × μ))
    (fs : List TimestampedURI)
    (hcoh : ∀ p ∈ m, p.2 = loadMeta p.1) :
    (load_fragment_metadata loadMeta m fs).2.length = fs.length ∧
    ∀ (i : Nat) (h1 : i < fs.length)
      (h2 : i < (load_fragment_metadata loadMeta m fs).2.length),
      (load_fragment_metadata loadMeta m fs).2.get ⟨i, h2⟩ =
        loadMeta (fs.get ⟨i, h1⟩) := by
  have hmap := load_fragment_metadata_eq_map loadMeta fs m hcoh
  constructor
  · rw [hmap]; exact List.length_map fs loadMeta
  · intro i h1 h2
    rw [List.get_of_eq hmap ⟨i, h2⟩]
    simp [List.get_eq_getElem, List.getElem_map]

/-- Witness for Claim C9: loading two fragments, one already cached. -/
theorem load_fragment_metadata_positional_witness :
    (∀ p ∈ ([(⟨1, 2, "a"⟩, 1)] : List (TimestampedURI × Nat)),
      p.2 = (fun f => f.tFirst) p.1) ∧
    ((load_fragment_metadata (fun f => f.tFirst) [(⟨1, 2, "a"⟩, 1)]
        [⟨1, 2, "a"⟩, ⟨3, 4, "b"⟩]).2.length =
      ([⟨1, 2, "a"⟩, ⟨3, 4, "b"⟩] : List TimestampedURI).length ∧
     ∀ (i : Nat)
       (h1 : i < ([⟨1, 2, "a"⟩, ⟨3, 4, "b"⟩] :
         List TimestampedURI).length)
       (h2 : i < (load_fragment_metadata (fun f => f.tFirst)
         [(⟨1, 2, "a"⟩, 1)] [⟨1, 2, "a"⟩, ⟨3, 4, "b"⟩]).2.length),
       (load_fragment_metadata (fun f => f.tFirst) [(⟨1, 2, "a"⟩, 1)]
         [⟨1, 2, "a"⟩, ⟨3, 4, "b"⟩]).2.get ⟨i, h2⟩ =
         (fun f => f.tFirst)
           (([⟨1, 2, "a"⟩, ⟨3, 4, "b"⟩] :
             List TimestampedURI).get ⟨i, h1⟩)) :=
  ⟨by decide,
   load_fragment_metadata_positional (fun f => f.tFirst)
     [(⟨1, 2, "a"⟩, 1)] [⟨1, 2, "a"⟩, ⟨3, 4, "b"⟩] (by decide)⟩

/-- Modelled from the spec: the body of `StorageManager::object_move`
is absent from the sources; its header documentation states that if
`new_path` exists it will be overwritten.  The filesystem is a map from
paths to objects (`none` = absent); moving a missing source fails with
`NotFound`, and otherwise the object is installed at `new_path` —
replacing whatever was there — and removed from `old_path`. -/
def object_move (fs : String → Option Nat) (old_path new_path : String) :
    Status × (String → Option Nat) :=
  match fs old_path with
  | none => (Status.error "NotFound", fs)
  | some o =>
      (Status.ok,
       fun p => if p = new_path then some o
                else if p = old_path then none else fs p)

/-- Claim C10: `object_move(old_path, new_path)` succeeds even when
`new_path` already exists — the existing object at `new_path` is
overwritten rather than the operation failing with `AlreadyExists`. -/
theorem object_move_overwrites (fs : String → Option Nat)
    (old_path new_path : String) (o o2 : Nat)
    (hold : fs old_path = some o) (_hnew : fs new_path = some o2) :
    (object_move fs old_path new_path).1 = Status.ok ∧
    (object_move fs old_path new_path).2 new_path = some o := by
  unfold object_move
  rw [hold]
  exact ⟨rfl, by simp⟩

/-- Witness for Claim C10: moving onto an occupied destination. -/
theorem object_move_overwrites_witness :
    (fun p => if p = "a" then some 1
              else if p = "b" then some 2 else none) "a" = some 1 ∧
    (fun p => if p = "a" then some 1
              else if p = "b" then some 2 else none) "b" = some 2 ∧
    ((object_move
        (fun p => if p = "a" then some 1
                  else if p = "b" then some 2 else none) "a" "b").1 =
      Status.ok ∧
     (object_move
        (fun p => if p = "a" then some 1
                  else if p = "b" then some 2 else none) "a" "b").2 "b" =
      some 1) :=
  ⟨rfl, rfl,
   object_move_overwrites
     (fun p => if p = "a" then some 1
               else if p = "b" then some 2 else none) "a" "b" 1 2
     rfl rfl⟩
